import Mathlib

/-!
Shallow embedding of the LitFinder literature-review pipeline
(`cleaning.py`, `fetchers.py`, `summarizer.py`, `nlp.py`, `app.py`).

Python strings are modelled as Lean `String` (a wrapper around `List Char`);
the Python string primitives used by the code (`strip`, `lower`, `split`,
`join`) are re-implemented on `List Char` so that every definition is
executable and provable by elementary induction.  Nullable values
(`None` / `NaN`) are modelled with `Option`.
-/

/-- Python `str.strip()`: drop leading and trailing whitespace characters. -/
def trimC (l : List Char) : List Char :=
  ((l.dropWhile Char.isWhitespace).reverse.dropWhile Char.isWhitespace).reverse

/-- Python `str.lower()` (ASCII case folding, which is all the code relies on). -/
def toLowerC (l : List Char) : List Char := l.map Char.toLower

/-- Python `str.split(sep)` for a one-character separator: empty segments kept. -/
def splitChar (sep : Char) : List Char → List (List Char)
  | [] => [[]]
  | c :: cs =>
    match splitChar sep cs with
    | [] => [[c]]
    | g :: gs => if c = sep then [] :: g :: gs else (c :: g) :: gs

/-- Python `str.split()` (no argument): whitespace-delimited tokens, no empties.
Implemented as: cut at every whitespace character, drop empty segments. -/
def wsSplitAux : List Char → List (List Char)
  | [] => [[]]
  | c :: cs =>
    match wsSplitAux cs with
    | [] => [[c]]
    | g :: gs => if c.isWhitespace then [] :: g :: gs else (c :: g) :: gs

def wsTokens (l : List Char) : List (List Char) :=
  (wsSplitAux l).filter (fun t => t ≠ [])

/-- `pd.isna`-aware stringification used by `cleaning.remove_duplicates`:
`str(x)` where a missing value (`None`/`NaN` cell) prints as `"nan"`. -/
def pyStrOpt : Option String → String
  | some s => s
  | none => "nan"

/-- One bibliographic record row, as consumed by `remove_duplicates`
(`cleaning.py`).  `doi`/`title` cells are either a string or null;
`tag` stands for the remaining payload of the row and keeps distinct
input rows distinguishable. -/
structure Row where
  doi : Option String
  title : Option String
  tag : Nat
deriving DecidableEq, Repr

/-- `str(row.get(title_col, "")).strip().lower()` from `remove_duplicates`. -/
def normTitleC (r : Row) : List Char :=
  toLowerC (trimC (pyStrOpt r.title).data)

/-!
`rapidfuzz.fuzz.ratio`: the normalized InDel similarity,
`100 * 2 * lcs(a, b) / (len a + len b)`, with the rapidfuzz convention
that two empty strings have similarity `100.0`.  The code only ever asks
whether the ratio exceeds `95`, so we embed that comparison exactly over
the integers: `ratio > 95  iff  200 * lcs > 95 * (len a + len b)`.
-/

/-- One DP row update for the longest-common-subsequence table:
given the previous row (for prefixes of `b`) produce the tail of the next
row after consuming one character `ca` of `a`.  `left` is the entry just
computed to the left of the current cell. -/
def lcsRowAux (ca : Char) : List Char → List Nat → Nat → List Nat
  | cb :: bs, p0 :: p1 :: ps, left =>
    let v := if cb = ca then p0 + 1 else max p1 left
    v :: lcsRowAux ca bs (p1 :: ps) v
  | _, _, _ => []

/-- Length of the longest common subsequence of two character lists. -/
def lcs (a b : List Char) : Nat :=
  let final := a.foldl (fun row ca => 0 :: lcsRowAux ca b row 0)
    (List.replicate (b.length + 1) 0)
  final.getLastD 0

/-- `fuzz.ratio(a, b) > 95`, embedded exactly (see above). -/
def fuzzGt95 (a b : List Char) : Bool :=
  if a = [] ∧ b = [] then true
  else 95 * (a.length + b.length) < 200 * lcs a b

/-- The duplicate test of `cleaning.remove_duplicates`:
`existing_title and title and fuzz.ratio(existing_title, title) > 95`. -/
def dupMatch (e r : Row) : Bool :=
  normTitleC e ≠ [] && normTitleC r ≠ [] && fuzzGt95 (normTitleC e) (normTitleC r)

/-- The DOI-less branch of `remove_duplicates`: drop the row when its title
fuzzily matches the title of any currently-kept row, else append it. -/
def titleStep (acc : List Row × List String) (r : Row) : List Row × List String :=
  if acc.1.any (fun e => dupMatch e r) then acc else (acc.1 ++ [r], acc.2)

/-- One iteration of the `for _, row in df.iterrows()` loop of
`cleaning.remove_duplicates` (state: kept rows, seen DOIs). -/
def rdStep (acc : List Row × List String) (r : Row) : List Row × List String :=
  match r.doi with
  | some d =>
    if d = "" then titleStep acc r
    else if d ∈ acc.2 then acc else (acc.1 ++ [r], d :: acc.2)
  | none => titleStep acc r

/-- `cleaning.remove_duplicates` (the variant imported by `app.py`). -/
def removeDuplicates (rows : List Row) : List Row :=
  (rows.foldl rdStep ([], [])).1

/-- Is the row in the DOI-less branch of `remove_duplicates`
(null, non-string or empty `doi`)? -/
def emptyDoi (r : Row) : Bool :=
  match r.doi with
  | some d => d = ""
  | none => true

/-- Row whose `doi` is empty/null and whose stringified trimmed title is empty. -/
def blankRow (r : Row) : Bool :=
  emptyDoi r && decide (normTitleC r = [])

/-! ### Lemmas about one `remove_duplicates` loop iteration -/

theorem titleStep_snd (acc : List Row × List String) (r : Row) :
    (titleStep acc r).2 = acc.2 := by
  unfold titleStep; split <;> rfl

theorem rdStep_fst_cases (acc : List Row × List String) (r : Row) :
    (rdStep acc r).1 = acc.1 ∨ (rdStep acc r).1 = acc.1 ++ [r] := by
  cases hdoi : r.doi with
  | none =>
    simp only [rdStep, hdoi]; unfold titleStep; split
    · exact Or.inl rfl
    · exact Or.inr rfl
  | some d =>
    simp only [rdStep, hdoi]
    by_cases h1 : d = ""
    · simp only [if_pos h1]; unfold titleStep; split
      · exact Or.inl rfl
      · exact Or.inr rfl
    · simp only [if_neg h1]
      by_cases h2 : d ∈ acc.2
      · simp [h2]
      · simp [h2]

theorem rdStep_mem_snd (acc : List Row × List String) (r : Row) (d : String) :
    d ∈ (rdStep acc r).2 ↔ d ∈ acc.2 ∨ (r.doi = some d ∧ d ≠ "") := by
  cases hdoi : r.doi with
  | none => simp [rdStep, hdoi, titleStep_snd]
  | some d' =>
    simp only [rdStep, hdoi]
    by_cases h1 : d' = ""
    · subst h1
      rw [if_pos rfl, titleStep_snd]
      constructor
      · exact Or.inl
      · rintro (h | ⟨heq, hne⟩)
        · exact h
        · cases heq; simp at hne
    · simp only [if_neg h1]
      by_cases h2 : d' ∈ acc.2
      · simp only [if_pos h2]
        constructor
        · exact Or.inl
        · rintro (h | ⟨heq, _⟩)
          · exact h
          · cases heq; exact h2
      · simp only [if_neg h2, List.mem_cons]
        constructor
        · rintro (h | h)
          · exact Or.inr ⟨by rw [h], by rw [← h] at h1; exact h1⟩
          · exact Or.inl h
        · rintro (h | ⟨heq, _⟩)
          · exact Or.inr h
          · cases heq; exact Or.inl rfl

theorem seen_foldl (l : List Row) :
    ∀ (acc : List Row × List String) (d : String),
      d ∈ (l.foldl rdStep acc).2 ↔
        d ∈ acc.2 ∨ ∃ r ∈ l, r.doi = some d ∧ d ≠ "" := by
  induction l with
  | nil => simp
  | cons a l ih =>
    intro acc d
    rw [List.foldl_cons, ih, rdStep_mem_snd]
    simp only [List.mem_cons]
    constructor
    · rintro ((h | h) | ⟨r, hr, h⟩)
      · exact Or.inl h
      · exact Or.inr ⟨a, Or.inl rfl, h⟩
      · exact Or.inr ⟨r, Or.inr hr, h⟩
    · rintro (h | ⟨r, (rfl | hr), h⟩)
      · exact Or.inl (Or.inl h)
      · exact Or.inl (Or.inr h)
      · exact Or.inr ⟨r, hr, h⟩

theorem kept_foldl_sublist (l : List Row) :
    ∀ acc : List Row × List String,
      ∃ ext, (l.foldl rdStep acc).1 = acc.1 ++ ext ∧ ext.Sublist l := by
  induction l with
  | nil => intro acc; exact ⟨[], by simp⟩
  | cons a l ih =>
    intro acc
    rw [List.foldl_cons]
    obtain ⟨ext, hext, hsub⟩ := ih (rdStep acc a)
    rcases rdStep_fst_cases acc a with h | h
    · exact ⟨ext, by rw [hext, h], hsub.cons a⟩
    · exact ⟨a :: ext, by rw [hext, h, List.append_assoc]; rfl, hsub.cons₂ a⟩

theorem countP_rdStep_of_false (p : Row → Bool) (acc : List Row × List String)
    (a : Row) (hp : p a = false) :
    List.countP p (rdStep acc a).1 = List.countP p acc.1 := by
  rcases rdStep_fst_cases acc a with h | h
  · rw [h]
  · rw [h]
    simp [List.countP_append, List.countP_cons, hp]

/-! ### Appending one record to the input -/

theorem rd_append (pre : List Row) (r : Row) :
    removeDuplicates (pre ++ [r]) = (rdStep (pre.foldl rdStep ([], [])) r).1 := by
  simp [removeDuplicates, List.foldl_append]

theorem rd_append_titleBranch (pre : List Row) (r : Row) (h : emptyDoi r = true) :
    removeDuplicates (pre ++ [r]) =
      if (removeDuplicates pre).any (fun e => dupMatch e r) then removeDuplicates pre
      else removeDuplicates pre ++ [r] := by
  rw [rd_append]
  have hstep : rdStep (pre.foldl rdStep ([], [])) r =
      titleStep (pre.foldl rdStep ([], [])) r := by
    unfold rdStep
    cases hdoi : r.doi with
    | none => rfl
    | some d =>
      have : d = "" := by simpa [emptyDoi, hdoi] using h
      simp [this]
  rw [hstep]
  unfold titleStep removeDuplicates
  split <;> rfl

theorem rd_append_doiBranch (pre : List Row) (r : Row) (d : String)
    (hd : r.doi = some d) (hne : d ≠ "") :
    removeDuplicates (pre ++ [r]) =
      if pre.any (fun x => x.doi == some d) then removeDuplicates pre
      else removeDuplicates pre ++ [r] := by
  rw [rd_append]
  simp only [rdStep, hd, if_neg hne]
  by_cases hmem : d ∈ (pre.foldl rdStep ([], [])).2
  · have hany : pre.any (fun x => x.doi == some d) = true := by
      rw [List.any_eq_true]
      rcases (seen_foldl pre ([], []) d).1 hmem with h | ⟨x, hx, hxd, _⟩
      · simp at h
      · exact ⟨x, hx, by simp [hxd]⟩
    simp [hmem, hany, removeDuplicates]
  · have hany : pre.any (fun x => x.doi == some d) = false := by
      rw [Bool.eq_false_iff]
      intro hc
      rw [List.any_eq_true] at hc
      obtain ⟨x, hx, hxd⟩ := hc
      exact hmem ((seen_foldl pre ([], []) d).2 (Or.inr ⟨x, hx, by simpa using hxd, hne⟩))
    simp [hmem, hany, removeDuplicates]

theorem rdStep_blank (acc : List Row × List String) (a : Row)
    (ha : blankRow a = true) : rdStep acc a = (acc.1 ++ [a], acc.2) := by
  have h := ha
  unfold blankRow at h
  rw [Bool.and_eq_true] at h
  obtain ⟨hd, ht⟩ := h
  have ht' : normTitleC a = [] := of_decide_eq_true ht
  have hdup : ∀ e, dupMatch e a = false := by
    intro e; unfold dupMatch; simp [ht']
  have hts : titleStep acc a = (acc.1 ++ [a], acc.2) := by
    unfold titleStep
    simp [hdup]
  cases hdoi : a.doi with
  | none => simpa [rdStep, hdoi] using hts
  | some d =>
    have hd0 : d = "" := by simpa [emptyDoi, hdoi] using hd
    simpa [rdStep, hdoi, hd0] using hts

theorem blank_count_foldl (l : List Row) :
    ∀ acc : List Row × List String,
      List.countP blankRow (l.foldl rdStep acc).1 =
        List.countP blankRow acc.1 + List.countP blankRow l := by
  induction l with
  | nil => intro acc; simp
  | cons a l ih =>
    intro acc
    rw [List.foldl_cons, ih]
    by_cases ha : blankRow a = true
    · rw [rdStep_blank acc a ha]
      simp [List.countP_append, List.countP_cons, ha]
      omega
    · have ha' : blankRow a = false := by
        rwa [Bool.not_eq_true] at ha
      rw [countP_rdStep_of_false _ _ _ ha']
      simp [List.countP_cons, ha']

theorem doi_count_foldl (d : String) (hne : d ≠ "") (l : List Row) :
    ∀ acc : List Row × List String,
      List.countP (fun r => r.doi == some d) acc.1 ≤ 1 →
      (1 ≤ List.countP (fun r => r.doi == some d) acc.1 → d ∈ acc.2) →
      List.countP (fun r => r.doi == some d) (l.foldl rdStep acc).1 ≤ 1 := by
  induction l with
  | nil => intro acc h1 _; simpa using h1
  | cons a l ih =>
    intro acc h1 h2
    rw [List.foldl_cons]
    by_cases hpa : (a.doi == some d) = true
    · have had : a.doi = some d := by simpa using hpa
      simp only [rdStep, had, if_neg hne]
      by_cases hm : d ∈ acc.2
      · simp only [if_pos hm]
        exact ih acc h1 h2
      · simp only [if_neg hm]
        have hc0 : List.countP (fun r => r.doi == some d) acc.1 = 0 := by
          by_contra hc
          exact hm (h2 (Nat.one_le_iff_ne_zero.2 hc))
        apply ih
        · simp [List.countP_append, List.countP_cons, hpa, hc0]
        · intro _
          exact List.mem_cons_self d acc.2
    · have hpa' : (a.doi == some d) = false := by
        rwa [Bool.not_eq_true] at hpa
      apply ih
      · rw [countP_rdStep_of_false _ _ _ hpa']; exact h1
      · rw [countP_rdStep_of_false _ _ _ hpa']
        intro hge
        exact (rdStep_mem_snd acc a d).2 (Or.inl (h2 hge))

/-! ### Claims about `remove_duplicates` -/

/-- Claim C2, amended: in `cleaning.remove_duplicates`, a record whose `doi`
is empty or null is dropped if and only if both its lower-cased trimmed title
and the lower-cased trimmed title of some currently-kept record are non-empty
and their fuzzy similarity ratio exceeds 95 (this is `dupMatch`); otherwise it
is appended.  Records with a non-empty `doi` are never subjected to any title
comparison: their fate depends only on the DOIs seen earlier. -/
theorem c2_titleless_dedup :
    (∀ (pre : List Row) (r : Row), emptyDoi r = true →
      removeDuplicates (pre ++ [r]) =
        if (removeDuplicates pre).any (fun e => dupMatch e r) then removeDuplicates pre
        else removeDuplicates pre ++ [r])
    ∧ (∀ (pre : List Row) (r : Row) (d : String), r.doi = some d → d ≠ "" →
      removeDuplicates (pre ++ [r]) =
        if pre.any (fun x => x.doi == some d) then removeDuplicates pre
        else removeDuplicates pre ++ [r]) :=
  ⟨rd_append_titleBranch, rd_append_doiBranch⟩

/-- Witness for C2 at concrete input: the title branch applied to two DOI-less
rows with identical non-empty titles, plus the concretely evaluated outcome
showing the second row is indeed dropped. -/
theorem c2_titleless_dedup_witness :
    (removeDuplicates ([Row.mk none (some "alpha") 0] ++ [Row.mk none (some "alpha") 1]) =
      if (removeDuplicates [Row.mk none (some "alpha") 0]).any
          (fun e => dupMatch e (Row.mk none (some "alpha") 1))
      then removeDuplicates [Row.mk none (some "alpha") 0]
      else removeDuplicates [Row.mk none (some "alpha") 0] ++ [Row.mk none (some "alpha") 1])
    ∧ removeDuplicates ([Row.mk none (some "alpha") 0] ++ [Row.mk none (some "alpha") 1]) =
        [Row.mk none (some "alpha") 0] :=
  ⟨c2_titleless_dedup.1 [Row.mk none (some "alpha") 0] (Row.mk none (some "alpha") 1) rfl,
    by decide⟩

/-- Counterexample to claim C2 as stated: two DOI-less rows whose titles
stringify to the empty string.  The fuzzy ratio between the two (empty) titles
is 100 which exceeds 95, so the claimed characterisation says the second row
is dropped; the code keeps both, because the similarity test is guarded by
both titles being non-empty. -/
theorem c2_titleless_dedup_counterexample :
    removeDuplicates [Row.mk none (some "") 0, Row.mk none (some "") 1] =
        [Row.mk none (some "") 0, Row.mk none (some "") 1]
      ∧ fuzzGt95 (normTitleC (Row.mk none (some "") 0)) (normTitleC (Row.mk none (some "") 1))
          = true
      ∧ emptyDoi (Row.mk none (some "") 1) = true := by
  exact ⟨by decide, by decide, rfl⟩

/-- Claim C3: `remove_duplicates` keeps at most one record per distinct
non-empty DOI, keeps the first such record (a record whose non-empty DOI is
not carried by any earlier record is always appended), is order-preserving
(the output is a subsequence of the input), and on
`[doi A, doi A, doi B]` keeps exactly the first `A` record then `B`. -/
theorem c3_doi_dedup :
    (∀ rows : List Row, (removeDuplicates rows).Sublist rows)
    ∧ (∀ (rows : List Row) (d : String), d ≠ "" →
        List.countP (fun r => r.doi == some d) (removeDuplicates rows) ≤ 1)
    ∧ (∀ (pre : List Row) (r : Row) (d : String), r.doi = some d → d ≠ "" →
        (∀ x ∈ pre, x.doi ≠ some d) →
        removeDuplicates (pre ++ [r]) = removeDuplicates pre ++ [r])
    ∧ removeDuplicates [Row.mk (some "A") (some "t1") 0, Row.mk (some "A") (some "t2") 1,
        Row.mk (some "B") (some "t3") 2] =
        [Row.mk (some "A") (some "t1") 0, Row.mk (some "B") (some "t3") 2] := by
  refine ⟨?_, ?_, ?_, by decide⟩
  · intro rows
    obtain ⟨ext, hext, hsub⟩ := kept_foldl_sublist rows ([], [])
    simpa [removeDuplicates, hext] using hsub
  · intro rows d hd
    exact doi_count_foldl d hd rows ([], []) (by simp) (by simp)
  · intro pre r d hd hne hnone
    rw [rd_append_doiBranch pre r d hd hne]
    have hany : pre.any (fun x => x.doi == some d) = false := by
      rw [Bool.eq_false_iff]
      intro hc
      rw [List.any_eq_true] at hc
      obtain ⟨x, hx, hxd⟩ := hc
      exact hnone x hx (by simpa using hxd)
    simp [hany]

/-- Witness for C3 at concrete input: the DOI count bound and the
first-occurrence-kept property instantiated on a two-record list. -/
theorem c3_doi_dedup_witness :
    List.countP (fun r => r.doi == some "A")
        (removeDuplicates [Row.mk (some "A") (some "t1") 0, Row.mk (some "A") (some "t2") 1]) ≤ 1
    ∧ removeDuplicates ([Row.mk (some "B") (some "t1") 0] ++ [Row.mk (some "A") (some "t2") 1]) =
        removeDuplicates [Row.mk (some "B") (some "t1") 0] ++ [Row.mk (some "A") (some "t2") 1] :=
  ⟨c3_doi_dedup.2.1 [Row.mk (some "A") (some "t1") 0, Row.mk (some "A") (some "t2") 1] "A"
      (by decide),
    c3_doi_dedup.2.2.1 [Row.mk (some "B") (some "t1") 0] (Row.mk (some "A") (some "t2") 1) "A"
      rfl (by decide) (by decide)⟩

/-- Claim C9: in the `cleaning.py` variant of `remove_duplicates` used by the
app, non-empty DOIs are compared by exact, case-sensitive string equality with
no normalization: the fate of a DOI-bearing record depends only on exact
membership of its DOI among earlier DOIs, and two records whose non-empty DOI
strings differ in any character both survive — in particular an OpenAlex-style
`https://doi.org/...` URL and the bare Crossref-style DOI, and two DOIs
differing only in letter case. -/
theorem c9_doi_exact_equality :
    (∀ (pre : List Row) (r : Row) (d : String), r.doi = some d → d ≠ "" →
      removeDuplicates (pre ++ [r]) =
        if pre.any (fun x => x.doi == some d) then removeDuplicates pre
        else removeDuplicates pre ++ [r])
    ∧ (∀ (r1 r2 : Row) (d1 d2 : String), r1.doi = some d1 → r2.doi = some d2 →
        d1 ≠ "" → d2 ≠ "" → d1 ≠ d2 →
        removeDuplicates [r1, r2] = [r1, r2])
    ∧ removeDuplicates [Row.mk (some "https://doi.org/10.1000/xyz") (some "Same Title") 0,
        Row.mk (some "10.1000/xyz") (some "Same Title") 1] =
        [Row.mk (some "https://doi.org/10.1000/xyz") (some "Same Title") 0,
          Row.mk (some "10.1000/xyz") (some "Same Title") 1]
    ∧ removeDuplicates [Row.mk (some "10.1000/ab") (some "Same Title") 0,
        Row.mk (some "10.1000/AB") (some "Same Title") 1] =
        [Row.mk (some "10.1000/ab") (some "Same Title") 0,
          Row.mk (some "10.1000/AB") (some "Same Title") 1] := by
  refine ⟨rd_append_doiBranch, ?_, by decide, by decide⟩
  intro r1 r2 d1 d2 h1 h2 hn1 hn2 hne
  have e1 : removeDuplicates [r1] = [r1] := by
    have h := rd_append_doiBranch [] r1 d1 h1 hn1
    simpa using h
  have hsplit : ([r1, r2] : List Row) = [r1] ++ [r2] := rfl
  rw [hsplit, rd_append_doiBranch [r1] r2 d2 h2 hn2]
  have hany : [r1].any (fun x => x.doi == some d2) = false := by
    simp [h1, hne]
  rw [hany]
  simp [e1]

/-- Witness for C9 at concrete input: a URL-prefixed DOI and a bare DOI
survive together. -/
theorem c9_doi_exact_equality_witness :
    removeDuplicates [Row.mk (some "https://doi.org/10.1/x") (some "T") 0,
        Row.mk (some "10.1/x") (some "T") 1] =
      [Row.mk (some "https://doi.org/10.1/x") (some "T") 0,
        Row.mk (some "10.1/x") (some "T") 1] :=
  c9_doi_exact_equality.2.1 (Row.mk (some "https://doi.org/10.1/x") (some "T") 0)
    (Row.mk (some "10.1/x") (some "T") 1) "https://doi.org/10.1/x" "10.1/x"
    rfl rfl (by decide) (by decide) (by decide)

/-- Claim C10: in `cleaning.remove_duplicates`, every record whose `doi` is
empty/null and whose trimmed title stringifies to empty is always kept: such
records are preserved exactly (same count before and after), and any number of
identical blank records all survive. -/
theorem c10_blank_rows_kept :
    (∀ rows : List Row,
      List.countP blankRow (removeDuplicates rows) = List.countP blankRow rows)
    ∧ (∀ (n : Nat) (r : Row), blankRow r = true →
      removeDuplicates (List.replicate n r) = List.replicate n r) := by
  constructor
  · intro rows
    have h := blank_count_foldl rows ([], [])
    simpa [removeDuplicates] using h
  · intro n r hr
    induction n with
    | zero => rfl
    | succ n ih =>
      rw [List.replicate_succ', rd_append]
      rw [rdStep_blank _ r hr]
      show (List.foldl rdStep ([], []) (List.replicate n r)).1 ++ [r] = _
      have : (List.foldl rdStep ([], []) (List.replicate n r)).1 = List.replicate n r := ih
      rw [this]

/-- Witness for C10 at concrete input: three blank records (null DOI,
whitespace-only title) all survive. -/
theorem c10_blank_rows_kept_witness :
    removeDuplicates (List.replicate 3 (Row.mk none (some " ") 7)) =
      List.replicate 3 (Row.mk none (some " ") 7) :=
  c10_blank_rows_kept.2 3 (Row.mk none (some " ") 7) (by decide)

/-!
### `cleaning.clean_html_abstract`

`re.sub(r"<[^<]+?>", "", text)`: scanning left to right, a match starting at
a `<` consumes one or more characters none of which is `<`, up to the first
`>` that leaves the body non-empty; each match is deleted.  `findClose rest k`
returns the total match length (body length `k` so far) or `none` when no
match starts here.  `stripTags` takes fuel (the list length suffices: every
step consumes at least one character) so that it is structurally recursive
and computes by `decide`.
-/

def findClose : List Char → Nat → Option Nat
  | [], _ => none
  | c :: cs, k =>
    if c = '<' then none
    else if c = '>' ∧ 1 ≤ k then some (k + 2)
    else findClose cs (k + 1)

def stripTags : Nat → List Char → List Char
  | _, [] => []
  | 0, l => l
  | fuel + 1, c :: rest =>
    if c = '<' then
      match findClose rest 0 with
      | some n => stripTags fuel (rest.drop (n - 1))
      | none => c :: stripTags fuel rest
    else c :: stripTags fuel rest

/-- Does the text contain a (non-greedy) tag match anywhere? -/
def hasTag : List Char → Bool
  | [] => false
  | c :: rest =>
    (if c = '<' then (findClose rest 0).isSome else false) || hasTag rest

/-- `cleaning.clean_html_abstract`: null/non-string input (modelled `none`)
yields the empty string, otherwise one left-to-right pass of tag removal. -/
def clean_html_abstract : Option String → String
  | none => ""
  | some s => String.mk (stripTags s.data.length s.data)

theorem notag_stripTags :
    ∀ (fuel : Nat) (l : List Char), l.length ≤ fuel → hasTag l = false →
      stripTags fuel l = l := by
  intro fuel
  induction fuel with
  | zero =>
    intro l hl _
    have : l = [] := List.length_eq_zero.1 (Nat.le_zero.1 hl)
    subst this; rfl
  | succ fuel ih =>
    intro l hl ht
    cases l with
    | nil => rfl
    | cons c rest =>
      have hrest : rest.length ≤ fuel := by
        simpa using Nat.succ_le_succ_iff.1 hl
      rw [hasTag] at ht
      rw [Bool.or_eq_false_iff] at ht
      obtain ⟨h1, h2⟩ := ht
      by_cases hc : c = '<'
      · have hnone : findClose rest 0 = none := by
          rw [if_pos hc] at h1
          exact Option.not_isSome_iff_eq_none.1 (by simp [h1])
        rw [stripTags, if_pos hc, hnone]
        rw [ih rest hrest h2]
      · rw [stripTags, if_neg hc]
        rw [ih rest hrest h2]

/-- A cleaning pass never lengthens the text. -/
theorem stripTags_length_le :
    ∀ (fuel : Nat) (l : List Char), (stripTags fuel l).length ≤ l.length := by
  intro fuel
  induction fuel with
  | zero =>
    intro l
    cases l with
    | nil => exact le_refl _
    | cons c rest => exact le_refl _
  | succ fuel ih =>
    intro l
    cases l with
    | nil => exact Nat.zero_le _
    | cons c rest =>
      by_cases hc : c = '<'
      · cases hfc : findClose rest 0 with
        | some n =>
          rw [stripTags, if_pos hc, hfc]
          have h1 := ih (rest.drop (n - 1))
          have h2 : (rest.drop (n - 1)).length ≤ rest.length := by
            rw [List.length_drop]; omega
          simp only [List.length_cons]
          omega
        | none =>
          rw [stripTags, if_pos hc, hfc]
          simp only [List.length_cons]
          exact Nat.succ_le_succ (ih rest)
      · rw [stripTags, if_neg hc]
        simp only [List.length_cons]
        exact Nat.succ_le_succ (ih rest)

/-- A cleaning pass over text that contains a tag match deletes at least one
character, so the output is strictly shorter. -/
theorem stripTags_length_lt :
    ∀ (fuel : Nat) (l : List Char), l.length ≤ fuel → hasTag l = true →
      (stripTags fuel l).length < l.length := by
  intro fuel
  induction fuel with
  | zero =>
    intro l hl ht
    have : l = [] := List.length_eq_zero.1 (Nat.le_zero.1 hl)
    subst this
    simp [hasTag] at ht
  | succ fuel ih =>
    intro l hl ht
    cases l with
    | nil => simp [hasTag] at ht
    | cons c rest =>
      have hrest : rest.length ≤ fuel := by
        simp only [List.length_cons] at hl; omega
      rw [hasTag] at ht
      by_cases hc : c = '<'
      · cases hfc : findClose rest 0 with
        | some n =>
          rw [stripTags, if_pos hc, hfc]
          have h1 := stripTags_length_le fuel (rest.drop (n - 1))
          have h2 : (rest.drop (n - 1)).length ≤ rest.length := by
            rw [List.length_drop]; omega
          simp only [List.length_cons]
          omega
        | none =>
          have ht' : hasTag rest = true := by
            rw [if_pos hc, hfc] at ht
            simpa using ht
          rw [stripTags, if_pos hc, hfc]
          simp only [List.length_cons]
          exact Nat.succ_lt_succ (ih rest hrest ht')
      · have ht' : hasTag rest = true := by
          rw [if_neg hc] at ht
          simpa using ht
        rw [stripTags, if_neg hc]
        simp only [List.length_cons]
        exact Nat.succ_lt_succ (ih rest hrest ht')

/-- Claim C5, amended: one pass of markup cleaning need not be idempotent
(a removed tag can expose a new tag, see the counterexample); cleaning is
idempotent exactly on inputs whose first-pass output is tag-free — cleaning
tag-free text is a no-op, and cleaning text that still contains a tag match
strictly shortens it, so such text is never a fixed point.  Both directions
are stated for arbitrary text and for first-pass outputs. -/
theorem c5_markup_cleaning :
    (∀ s : String, hasTag s.data = false → clean_html_abstract (some s) = s)
    ∧ (∀ s : String, hasTag s.data = true → clean_html_abstract (some s) ≠ s)
    ∧ (∀ x : Option String, hasTag (clean_html_abstract x).data = false →
        clean_html_abstract (some (clean_html_abstract x)) = clean_html_abstract x)
    ∧ (∀ x : Option String, hasTag (clean_html_abstract x).data = true →
        clean_html_abstract (some (clean_html_abstract x)) ≠ clean_html_abstract x) := by
  have key : ∀ s : String, hasTag s.data = false → clean_html_abstract (some s) = s := by
    intro s hs
    show String.mk (stripTags s.data.length s.data) = s
    rw [notag_stripTags s.data.length s.data (le_refl _) hs]
  have key2 : ∀ s : String, hasTag s.data = true → clean_html_abstract (some s) ≠ s := by
    intro s hs heq
    have hlen := stripTags_length_lt s.data.length s.data (le_refl _) hs
    have hdata : (clean_html_abstract (some s)).data = stripTags s.data.length s.data := rfl
    rw [heq] at hdata
    rw [← hdata] at hlen
    exact lt_irrefl _ hlen
  exact ⟨key, key2, fun x hx => key _ hx, fun x hx => key2 _ hx⟩

/-- Witness for C5 at concrete input: cleaning tag-free text is a no-op, one
concrete double-clean that stabilises, and one taggy first-pass output that
the second pass provably changes. -/
theorem c5_markup_cleaning_witness :
    clean_html_abstract (some "plain abstract text") = "plain abstract text"
    ∧ clean_html_abstract (some (clean_html_abstract (some "a <b>bold</b> word"))) =
        clean_html_abstract (some "a <b>bold</b> word")
    ∧ clean_html_abstract (some (clean_html_abstract (some "<a<b>>"))) ≠
        clean_html_abstract (some "<a<b>>") :=
  ⟨c5_markup_cleaning.1 "plain abstract text" (by decide),
    c5_markup_cleaning.2.2.1 (some "a <b>bold</b> word") (by decide),
    c5_markup_cleaning.2.2.2 (some "<a<b>>") (by decide)⟩

/-- Counterexample to claim C5 as stated: on `"<a<b>>"` one cleaning pass
yields `"<a>"` (the outer `<` cannot match across the inner `<`, and deleting
`<b>` exposes a new tag), and a second pass removes it, so double cleaning
differs from single cleaning. -/
theorem c5_markup_cleaning_counterexample :
    clean_html_abstract (some "<a<b>>") = "<a>"
    ∧ clean_html_abstract (some (clean_html_abstract (some "<a<b>>"))) = ""
    ∧ clean_html_abstract (some (clean_html_abstract (some "<a<b>>"))) ≠
        clean_html_abstract (some "<a<b>>") := by
  exact ⟨by decide, by decide, by decide⟩

/-! ### `cleaning.normalize_authors` -/

/-- One name: `" ".join(name.strip().split()[::-1])`. -/
def revName (n : List Char) : List Char :=
  List.intercalate [' '] (wsTokens (trimC n)).reverse

/-- `cleaning.normalize_authors` body on the character list of the input:
split on commas, keep segments whose strip is non-empty, reverse the
whitespace tokens of each, rejoin with `", "`. -/
def normalizeAuthorsC (l : List Char) : List Char :=
  List.intercalate [',', ' ']
    (((splitChar ',' l).filter (fun n => trimC n ≠ [])).map revName)

/-- `cleaning.normalize_authors`: null/non-string input yields `""`. -/
def normalize_authors : Option String → String
  | none => ""
  | some s => String.mk (normalizeAuthorsC s.data)

/-- Claim C8 read literally: split on commas, reverse the whitespace tokens
of EACH segment, rejoin all segments with `", "` (no segment is dropped). -/
def claimNormalizeLiteral (s : String) : String :=
  String.mk (List.intercalate [',', ' '] ((splitChar ',' s.data).map revName))

/-- Claim C8 amended: as the literal reading, except that segments that are
empty after stripping are dropped before rejoining. -/
def specNormalizeAmended (s : String) : String :=
  String.mk (List.intercalate [',', ' ']
    ((((splitChar ',' s.data).map trimC).filter (fun n => n ≠ [])).map
      (fun n => List.intercalate [' '] (wsTokens n).reverse)))

theorem dropWhile_eq_self_of_false {α} (p : α → Bool) (l : List α)
    (h : ∀ c ∈ l, p c = false) : l.dropWhile p = l := by
  cases l with
  | nil => rfl
  | cons a l =>
    rw [List.dropWhile_cons, h a (List.mem_cons_self a l)]
    simp

theorem trimC_eq_self (l : List Char) (h : ∀ c ∈ l, c.isWhitespace = false) :
    trimC l = l := by
  unfold trimC
  rw [dropWhile_eq_self_of_false _ l h]
  rw [dropWhile_eq_self_of_false _ l.reverse (by simpa using fun c hc => h c hc)]
  exact List.reverse_reverse l

theorem splitChar_no_sep (sep : Char) (l : List Char) (h : ∀ c ∈ l, c ≠ sep) :
    splitChar sep l = [l] := by
  induction l with
  | nil => rfl
  | cons c cs ih =>
    rw [splitChar, ih (fun x hx => h x (List.mem_cons_of_mem c hx))]
    simp [h c (List.mem_cons_self c cs)]

theorem wsSplitAux_no_ws (l : List Char) (h : ∀ c ∈ l, c.isWhitespace = false) :
    wsSplitAux l = [l] := by
  induction l with
  | nil => rfl
  | cons c cs ih =>
    rw [wsSplitAux, ih (fun x hx => h x (List.mem_cons_of_mem c hx))]
    simp [h c (List.mem_cons_self c cs)]

theorem intercalate_single {α} (sep : List α) (x : List α) :
    List.intercalate sep [x] = x := by
  simp [List.intercalate]

theorem filter_map_trim (l : List (List Char)) :
    (l.map trimC).filter (fun n => n ≠ []) =
      (l.filter (fun n => trimC n ≠ [])).map trimC := by
  induction l with
  | nil => rfl
  | cons a l ih =>
    rw [List.map_cons]
    by_cases ha : trimC a = []
    · rw [List.filter_cons_of_neg (by simp [ha]), List.filter_cons_of_neg (by simp [ha]), ih]
    · rw [List.filter_cons_of_pos (by simp [ha]), List.filter_cons_of_pos (by simp [ha]),
        List.map_cons, ih]

/-- Claim C8, amended: `normalize_authors` splits on commas, DROPS segments
that are blank after stripping, reverses the whitespace tokens of each
remaining name and rejoins with `", "`; null/non-string input yields the
empty string; a single-token name (non-empty, no whitespace, no comma) passes
through unchanged; and the operation is self-inverse on `"Doe John"`. -/
theorem c8_normalize_author_order :
    (∀ s : String, normalize_authors (some s) = specNormalizeAmended s)
    ∧ normalize_authors none = ""
    ∧ (∀ name : List Char, name ≠ [] →
        (∀ c ∈ name, c.isWhitespace = false) → (∀ c ∈ name, c ≠ ',') →
        normalize_authors (some (String.mk name)) = String.mk name)
    ∧ normalize_authors (some (normalize_authors (some "Doe John"))) = "Doe John" := by
  refine ⟨?_, rfl, ?_, by decide⟩
  · intro s
    show String.mk (normalizeAuthorsC s.data) = _
    unfold normalizeAuthorsC specNormalizeAmended
    rw [filter_map_trim, List.map_map]
    rfl
  · intro name hne hws hcomma
    show String.mk (normalizeAuthorsC name) = String.mk name
    unfold normalizeAuthorsC
    rw [splitChar_no_sep ',' name hcomma]
    have htrim : trimC name = name := trimC_eq_self name hws
    have hfil : ([name].filter (fun n => trimC n ≠ [])) = [name] := by
      simp [htrim, hne]
    rw [hfil]
    have hrev : revName name = name := by
      unfold revName wsTokens
      rw [htrim, wsSplitAux_no_ws name hws]
      simp [hne, intercalate_single]
    rw [List.map_singleton, hrev, intercalate_single]

/-- Witness for C8 at concrete input: a single-token name passes through. -/
theorem c8_normalize_author_order_witness :
    normalize_authors (some (String.mk "Smith".data)) = String.mk "Smith".data :=
  c8_normalize_author_order.2.2.1 "Smith".data (by decide) (by decide) (by decide)

/-- Counterexample to claim C8 as stated: on input `","` the claimed
split-reverse-rejoin yields `", "` (two empty names rejoined), but the code
drops blank segments and returns `""`. -/
theorem c8_normalize_author_order_counterexample :
    normalize_authors (some ",") = ""
    ∧ claimNormalizeLiteral "," = ", "
    ∧ normalize_authors (some ",") ≠ claimNormalizeLiteral "," := by
  exact ⟨by decide, by decide, by decide⟩

/-!
### `fetchers.reconstruct_abstract`

The OpenAlex inverted index is a JSON value: either a mapping from words to
position values (`pdict`, items in insertion order, keys unique) or something
that is not a mapping (`pnotdict`).  A position value is a list of integers
(`plist`) or a value on which Python `min(...)` raises (`pbad`); `min` also
raises on an empty list.  The code sorts the dict items by `min` of the value
(a stable sort, embedded as a stable insertion sort `pySort`, extensionally
equal to Python `sorted`) and joins the keys with single spaces; any raised
exception is swallowed into the empty string.
-/

inductive PyPos where
  | plist (xs : List Int)
  | pbad
deriving DecidableEq, Repr

inductive PyInv where
  | pdict (es : List (String × PyPos))
  | pnotdict
deriving DecidableEq, Repr

/-- Python `min(x)` on a position value: `none` models a raised exception. -/
def pyMin : PyPos → Option Int
  | .plist [] => none
  | .plist (x :: xs) => some (xs.foldl min x)
  | .pbad => none

/-- Stable insertion: place `a` before the first element `b` with `le a b`. -/
def pyInsert {α} (le : α → α → Bool) (a : α) : List α → List α
  | [] => [a]
  | b :: l => if le a b then a :: b :: l else b :: pyInsert le a l

/-- Stable sort by a total preorder, extensionally equal to Python `sorted`. -/
def pySort {α} (le : α → α → Bool) : List α → List α
  | [] => []
  | a :: l => pyInsert le a (pySort le l)

/-- The sort key `min(x[1])`, defined when no exception was raised. -/
def minKeyD (e : String × PyPos) : Int := (pyMin e.2).getD 0

/-- `fetchers.reconstruct_abstract`. -/
def reconstruct_abstract : PyInv → String
  | .pnotdict => ""
  | .pdict es =>
    if es.all (fun e => (pyMin e.2).isSome) then
      String.intercalate " "
        ((pySort (fun a b => minKeyD a ≤ minKeyD b) es).map Prod.fst)
    else ""

def posList : PyPos → List Int
  | .plist xs => xs
  | .pbad => []

/-- Claim C1 read literally: on a well-formed mapping (every value a
non-empty list of positions), sort ALL (word, position) pairs by position
ascending and join the words, so a word at k positions appears k times. -/
def claimReconstructPairs : PyInv → String
  | .pnotdict => ""
  | .pdict es =>
    if es.all (fun e => match e.2 with | .plist xs => !xs.isEmpty | .pbad => false) then
      String.intercalate " "
        ((pySort (fun a b => a.2 ≤ b.2)
          ((es.map (fun e => (posList e.2).map (fun p => (e.1, p)))).flatten)).map Prod.fst)
    else ""

/-- Claim C1 amended: sort the (word, minimum position) pairs by minimum
position ascending and join the words, each distinct word appearing once. -/
def claimReconstructAmended : PyInv → String
  | .pnotdict => ""
  | .pdict es =>
    if es.all (fun e => (pyMin e.2).isSome) then
      String.intercalate " "
        ((pySort (fun a b => a.2 ≤ b.2)
          (es.map (fun e => (e.1, minKeyD e)))).map Prod.fst)
    else ""

theorem pyInsert_map {α β} (f : α → β) (le : α → α → Bool) (le' : β → β → Bool)
    (h : ∀ a b, le' (f a) (f b) = le a b) (a : α) :
    ∀ l, pyInsert le' (f a) (l.map f) = (pyInsert le a l).map f := by
  intro l
  induction l with
  | nil => rfl
  | cons b l ih =>
    rw [List.map_cons, pyInsert, pyInsert, h a b]
    by_cases hb : le a b = true
    · simp [hb]
    · rw [Bool.not_eq_true] at hb
      simp [hb, ih]

theorem pySort_map {α β} (f : α → β) (le : α → α → Bool) (le' : β → β → Bool)
    (h : ∀ a b, le' (f a) (f b) = le a b) :
    ∀ l, pySort le' (l.map f) = (pySort le l).map f := by
  intro l
  induction l with
  | nil => rfl
  | cons a l ih =>
    rw [List.map_cons, pySort, pySort, ih, pyInsert_map f le le' h]

/-- Claim C1, amended: `reconstruct_abstract` equals the amended
specification (distinct words sorted by their minimum position, each word
once) on every input — including the agreed error behaviour: a non-mapping
input or a mapping with any malformed or empty position value yields the
empty string and no error. -/
theorem c1_reconstruct_abstract_amended :
    (∀ inv : PyInv, reconstruct_abstract inv = claimReconstructAmended inv)
    ∧ reconstruct_abstract (.pdict [("quantum", .plist [0]), ("cryptography", .plist [1])]) =
        "quantum cryptography"
    ∧ reconstruct_abstract .pnotdict = ""
    ∧ reconstruct_abstract (.pdict [("w", .pbad)]) = ""
    ∧ reconstruct_abstract (.pdict [("w", .plist [])]) = "" := by
  refine ⟨?_, by decide, rfl, rfl, rfl⟩
  intro inv
  cases inv with
  | pnotdict => rfl
  | pdict es =>
    simp only [reconstruct_abstract, claimReconstructAmended]
    by_cases hall : es.all (fun e => (pyMin e.2).isSome) = true
    · rw [if_pos hall, if_pos hall]
      rw [pySort_map (fun e => (e.1, minKeyD e))
        (fun a b => minKeyD a ≤ minKeyD b) (fun a b => a.2 ≤ b.2) (fun a b => rfl)]
      rw [List.map_map]
      rfl
    · rw [if_neg hall, if_neg hall]

/-- Counterexample to claim C1 as stated: on the well-formed mapping
`a ↦ [0, 2], b ↦ [1]` the claimed pair-sorting reconstruction yields
`"a b a"` (the word `a` occurs at 2 positions), but the code sorts the
distinct words by minimum position and yields `"a b"`. -/
theorem c1_reconstruct_abstract_counterexample :
    reconstruct_abstract (.pdict [("a", .plist [0, 2]), ("b", .plist [1])]) = "a b"
    ∧ claimReconstructPairs (.pdict [("a", .plist [0, 2]), ("b", .plist [1])]) = "a b a"
    ∧ reconstruct_abstract (.pdict [("a", .plist [0, 2]), ("b", .plist [1])]) ≠
        claimReconstructPairs (.pdict [("a", .plist [0, 2]), ("b", .plist [1])]) := by
  exact ⟨by decide, by decide, by decide⟩

/-!
### `fetchers.fetch_all`

Each source adapter catches every exception internally and returns the list
of records collected so far, so the orchestrator sees one (possibly empty)
list per requested source, in completion order; `outputs` below is that list
of adapter results.  A record arrives as a Python dict, modelled as an
association list from field name to cell value; `pd.concat` gives `NaN` for a
column a row's frame lacks, and the back-fill loop writes `""` for a column
missing from the whole unified frame.
-/

inductive Cell where
  | str (s : String)
  | int (n : Int)
  | null
  | nan
deriving DecidableEq, Repr

abbrev RawRow := List (String × Cell)

/-- `keep_cols` from `fetch_all`. -/
def keepCols : List String :=
  ["title", "authors", "year", "abstract", "journal", "doi", "source"]

/-- `if data: frames.append(pd.DataFrame(data))`: empty adapter results are
not turned into frames. -/
def nonEmptyFrames (outputs : List (List RawRow)) : List (List RawRow) :=
  outputs.filter (fun o => !o.isEmpty)

/-- The columns of the concatenated frame: union of the keys occurring in
any row of any frame (first-seen order; only membership matters). -/
def allCols (frames : List (List RawRow)) : List String :=
  ((frames.flatten).map (fun r => r.map Prod.fst)).flatten.dedup

/-- Projection of one row to `keep_cols` order: a key present in the row
keeps its value, a key present in the unified frame but not in the row is
`NaN` (from `pd.concat` / missing dict key), a key absent from the whole
frame was back-filled with `""`. -/
def projectRow (cols : List String) (r : RawRow) : RawRow :=
  keepCols.map (fun c =>
    (c, if c ∈ cols then ((r.lookup c).getD Cell.nan) else Cell.str ""))

/-- `fetchers.fetch_all` after the adapters have completed: raises
(`Except.error`) exactly when no adapter produced data, else returns the
concatenated, schema-projected table. -/
def fetch_all (outputs : List (List RawRow)) : Except String (List RawRow) :=
  let frames := nonEmptyFrames outputs
  if frames.isEmpty then Except.error "No data returned from any source."
  else Except.ok ((frames.flatten).map (projectRow (allCols frames)))

theorem nonEmptyFrames_nil_iff (outputs : List (List RawRow)) :
    (nonEmptyFrames outputs).isEmpty = true ↔ ∀ o ∈ outputs, o = [] := by
  rw [List.isEmpty_iff, nonEmptyFrames, List.filter_eq_nil_iff]
  constructor
  · intro h o ho
    have := h o ho
    simpa using this
  · intro h o ho
    simp [h o ho]

theorem sum_length_nonEmptyFrames (outputs : List (List RawRow)) :
    ((nonEmptyFrames outputs).map List.length).sum = (outputs.map List.length).sum := by
  induction outputs with
  | nil => rfl
  | cons o l ih =>
    by_cases ho : o.isEmpty
    · have : o = [] := List.isEmpty_iff.1 ho
      subst this
      simp [nonEmptyFrames, List.filter_cons] at ih ⊢
      exact ih
    · have hb : (!o.isEmpty) = true := by simp [ho]
      simp [nonEmptyFrames, List.filter_cons, hb] at ih ⊢
      exact ih

theorem lookup_mem {β} (l : List (String × β)) (a : String) (b : β)
    (h : l.lookup a = some b) : (a, b) ∈ l := by
  induction l with
  | nil => simp [List.lookup] at h
  | cons p l ih =>
    obtain ⟨k, w⟩ := p
    rw [List.lookup] at h
    cases ha : a == k with
    | true =>
      rw [ha] at h
      have h1 : a = k := by simpa using ha
      have h2 : w = b := by simpa using h
      subst h1; subst h2
      exact List.mem_cons_self _ _
    | false =>
      rw [ha] at h
      exact List.mem_cons_of_mem _ (ih h)

/-- Claim C4: `fetch_all` fails with its fatal no-data error if and only if
every requested adapter contributed an empty result; if at least one adapter
returned records, `fetch_all` returns the projected concatenation of all
non-empty adapter outputs (every fetched record accounted for) and no error
is raised. -/
theorem c4_fetch_all_no_data :
    ∀ outputs : List (List RawRow),
      (fetch_all outputs = Except.error "No data returned from any source." ↔
        ∀ o ∈ outputs, o = [])
      ∧ ((∃ o ∈ outputs, o ≠ []) →
          ∃ rows, fetch_all outputs = Except.ok rows ∧
            rows = ((nonEmptyFrames outputs).flatten).map
              (projectRow (allCols (nonEmptyFrames outputs))) ∧
            rows.length = (outputs.map List.length).sum) := by
  intro outputs
  constructor
  · constructor
    · intro h
      rw [← nonEmptyFrames_nil_iff]
      by_contra hne
      rw [fetch_all] at h
      simp only [if_neg hne] at h
      exact Except.noConfusion h
    · intro h
      have he := (nonEmptyFrames_nil_iff outputs).2 h
      rw [fetch_all]
      simp [he]
  · intro ⟨o, ho, hne⟩
    have hf : (nonEmptyFrames outputs).isEmpty ≠ true := by
      rw [Ne, nonEmptyFrames_nil_iff]
      intro hall
      exact hne (hall o ho)
    refine ⟨_, by rw [fetch_all]; simp [hf], rfl, ?_⟩
    rw [List.length_map, List.length_flatten, sum_length_nonEmptyFrames]

/-- Witness for C4 at concrete input: one empty adapter and one adapter with
a single record; the orchestrator returns data and the no-data error is
impossible. -/
theorem c4_fetch_all_no_data_witness :
    (fetch_all [[], [[("title", Cell.str "T")]]] =
        Except.error "No data returned from any source." ↔
      ∀ o ∈ [([] : List RawRow), [[("title", Cell.str "T")]]], o = [])
    ∧ ∃ rows, fetch_all [[], [[("title", Cell.str "T")]]] = Except.ok rows ∧
        rows = ((nonEmptyFrames [[], [[("title", Cell.str "T")]]]).flatten).map
          (projectRow (allCols (nonEmptyFrames [[], [[("title", Cell.str "T")]]]))) ∧
        rows.length = ([[], [[("title", Cell.str "T")]]].map List.length).sum :=
  ⟨(c4_fetch_all_no_data [[], [[("title", Cell.str "T")]]]).1,
    (c4_fetch_all_no_data [[], [[("title", Cell.str "T")]]]).2
      ⟨[[("title", Cell.str "T")]], by decide, by decide⟩⟩

/-- Claim C7: every table returned by `fetch_all` has exactly the column set
`title, authors, year, abstract, journal, doi, source` in that order; every
cell either carries a value present in some adapter record under the same
key, or is an empty back-fill (`NaN` or `""`); adapter-specific extra fields
never appear. -/
theorem c7_fetch_all_schema :
    ∀ (outputs : List (List RawRow)) (rows : List RawRow),
      fetch_all outputs = Except.ok rows →
      ∀ row ∈ rows,
        row.map Prod.fst = keepCols
        ∧ ∀ c v, (c, v) ∈ row →
            (∃ src ∈ outputs.flatten, (c, v) ∈ src) ∨ v = Cell.nan ∨ v = Cell.str "" := by
  intro outputs rows h row hrow
  rw [fetch_all] at h
  by_cases hf : (nonEmptyFrames outputs).isEmpty = true
  · simp only [if_pos hf] at h
    exact Except.noConfusion h
  · simp only [if_neg hf] at h
    have hrows : rows = ((nonEmptyFrames outputs).flatten).map
        (projectRow (allCols (nonEmptyFrames outputs))) := by
      have := h
      injection this with h'
      exact h'.symm
    subst hrows
    obtain ⟨src, hsrc, hproj⟩ := List.mem_map.1 hrow
    subst hproj
    constructor
    · rw [projectRow, List.map_map]
      exact List.map_id keepCols
    · intro c v hcv
      obtain ⟨c', _, heq⟩ := List.mem_map.1 hcv
      have hc : c' = c := congrArg Prod.fst heq
      subst hc
      have hv : v = if c' ∈ allCols (nonEmptyFrames outputs)
          then ((src.lookup c').getD Cell.nan) else Cell.str "" :=
        (congrArg Prod.snd heq).symm
      by_cases hmem : c' ∈ allCols (nonEmptyFrames outputs)
      · rw [if_pos hmem] at hv
        cases hl : src.lookup c' with
        | none => rw [hl] at hv; right; left; exact hv
        | some v0 =>
          rw [hl] at hv
          left
          refine ⟨src, ?_, ?_⟩
          · obtain ⟨f, hfmem, hsf⟩ := List.mem_flatten.1 hsrc
            exact List.mem_flatten.2 ⟨f, List.mem_of_mem_filter hfmem, hsf⟩
          · rw [hv]
            exact lookup_mem src c' v0 hl
      · rw [if_neg hmem] at hv
        right; right; exact hv

/-- Witness for C7 at concrete input: an adapter record with an extra field
and missing standard fields projects to exactly the seven columns. -/
theorem c7_fetch_all_schema_witness :
    ([("title", Cell.str "T"), ("authors", Cell.str ""), ("year", Cell.str ""),
        ("abstract", Cell.str ""), ("journal", Cell.str ""), ("doi", Cell.str ""),
        ("source", Cell.str "")] : RawRow).map Prod.fst = keepCols :=
  (c7_fetch_all_schema [[[("title", Cell.str "T"), ("extra", Cell.int 5)]]]
    [[("title", Cell.str "T"), ("authors", Cell.str ""), ("year", Cell.str ""),
      ("abstract", Cell.str ""), ("journal", Cell.str ""), ("doi", Cell.str ""),
      ("source", Cell.str "")]] rfl _ (by simp)).1

/-!
### `summarizer.py` and `nlp.py` (AI enrichment)

The external OpenAI collaborator is modelled as an oracle.  For the batched
call, the oracle returns either `none` — any exception on the way from
`client.chat.completions.create` through the code-fence stripping and
`json.loads` (API error, malformed content) — or `some j`, the successfully
parsed JSON value of the response.  For the per-item fallback call the
summarizer oracle returns the content string or an error message (the caught
exception), and the keyword oracle returns the parsed JSON value or `none`.
The client handle itself is taken as given: `_openai_client()` raising on a
missing API key is a configuration failure, out of scope of the enrichment
contract.  Batch size is modelled for positive sizes (Python `range` raises
on step 0).
-/

inductive J where
  | jnull
  | jint (n : Int)
  | jstr (s : String)
  | jarr (xs : List J)
  | jobj (fs : List (String × J))

mutual

/-- Python `repr` of a parsed JSON value (up to string escaping). -/
def jRepr : J → String
  | .jnull => "None"
  | .jint n => toString n
  | .jstr s => "'" ++ s ++ "'"
  | .jarr xs => "[" ++ String.intercalate ", " (jReprList xs) ++ "]"
  | .jobj fs => "\x7b" ++ String.intercalate ", " (jReprFields fs) ++ "\x7d"

def jReprList : List J → List String
  | [] => []
  | x :: xs => jRepr x :: jReprList xs

def jReprFields : List (String × J) → List String
  | [] => []
  | (k, v) :: fs => ("'" ++ k ++ "': " ++ jRepr v) :: jReprFields fs

end

/-- Python `str` of a parsed JSON value: like `repr` except a top-level
string is returned verbatim. -/
def pyStrJ : J → String
  | .jstr s => s
  | v => jRepr v

/-- Python dict subscript on a parsed JSON object (keys unique). -/
def jLookup (fs : List (String × J)) (k : String) : Option J :=
  (fs.find? (fun p => p.1 == k)).map Prod.snd

/-- Python `int(x)` on a parsed JSON value; `none` models a raised error. -/
def pyIntJ : J → Option Int
  | .jint n => some n
  | .jstr s => s.toInt?
  | _ => none

/-- Python dict assignment `d[k] = v` on an insertion-ordered assoc list. -/
def dictSet {κ α : Type} [DecidableEq κ] : List (κ × α) → κ → α → List (κ × α)
  | [], k, v => [(k, v)]
  | p :: d, k, v => if p.1 = k then (k, v) :: d else p :: dictSet d k v

/-- Python `d.get(k)` / `k in d`. -/
def dictGet? {κ α : Type} [DecidableEq κ] : List (κ × α) → κ → Option α
  | [], _ => none
  | p :: d, k => if p.1 = k then some p.2 else dictGet? d k

/-- Python `d.update(b)`. -/
def dictUpdate {κ α : Type} [DecidableEq κ] (d b : List (κ × α)) : List (κ × α) :=
  b.foldl (fun acc p => dictSet acc p.1 p.2) d

/-- `_chunks(seq, size)`, fuelled so it is structural (fuel `seq.length`
suffices for `size ≥ 1`). -/
def chunksAux {α : Type} (size : Nat) : Nat → List α → List (List α)
  | _, [] => []
  | 0, _ => []
  | fuel + 1, l => l.take size :: chunksAux size fuel (l.drop size)

def chunks {α : Type} (size : Nat) (l : List α) : List (List α) :=
  chunksAux size l.length l

/-- The summarization collaborator (see the section comment). -/
structure SummApi where
  batch : List (Int × String) → Option J
  item : String → Except String String

/-- `summarizer._summarize_one` with the client given: empty text short-
circuits, an API error is caught and becomes the explicit error marker. -/
def summarizeOne (api : SummApi) (text : String) : String :=
  if trimC text.data = [] then "No abstract provided."
  else
    match api.item text with
    | .ok content => String.mk (trimC content.data)
    | .error e => "[Summarization error: " ++ e ++ "]"

/-- The `out` dict built from the parsed batch response in
`_summarize_batch`: non-list responses give an empty dict; each list element
contributes only if it is a dict whose `id` converts to `int` and which has
a `summary` key; per-element failures are swallowed (`continue`). -/
def extractSummaries (parsed : J) : List (Int × String) :=
  match parsed with
  | .jarr objs =>
    objs.foldl (fun out o =>
      match o with
      | .jobj fs =>
        match jLookup fs "id" with
        | none => out
        | some idv =>
          match pyIntJ idv with
          | none => out
          | some i =>
            match jLookup fs "summary" with
            | none => out
            | some sv => dictSet out i (String.mk (trimC (pyStrJ sv).data))
      | _ => out) []
  | _ => []

/-- `summarizer._summarize_batch`: a failed/yielding-garbage batched call
falls back to per-item calls; ids the parsed response misses are filled
per-item (first matching text, each missing id once). -/
def summarizeBatch (api : SummApi) (texts : List (Int × String)) :
    List (Int × String) :=
  match api.batch texts with
  | none => texts.map (fun p => (p.1, summarizeOne api p.2))
  | some parsed =>
    let out := extractSummaries parsed
    let missingIds := ((texts.map Prod.fst).filter
      (fun i => (dictGet? out i).isNone)).dedup
    missingIds.foldl (fun acc i =>
      dictSet acc i (summarizeOne api
        (((texts.find? (fun p => p.1 == i)).map Prod.snd).getD ""))) out

/-- One data-frame row as seen by the enrichment code: the text column,
the two enrichment columns (absent/NaN modelled `none`) and a `tag` for the
remaining payload.  Row labels are positions (the app resets the index). -/
structure SRow where
  abstract : Option String
  summary : Option String
  keywords : Option (List String)
  tag : Nat
deriving DecidableEq, Repr

/-- `df.loc[i, text_column].fillna("").astype(str)` for one label. -/
def pyTextAt (rows : List SRow) (i : Nat) : String :=
  match rows[i]? with
  | some r => r.abstract.getD ""
  | none => ""

def mapIdxFrom {α : Type} (n : Nat) (f : Nat → α → α) : List α → List α
  | [] => []
  | a :: l => f n a :: mapIdxFrom (n + 1) f l

def setSummary (r : SRow) (v : String) : SRow := { r with summary := some v }

def setKeywords (r : SRow) (v : List String) : SRow := { r with keywords := some v }

/-- `summarizer.run_summaries`: batch the selected (id, text) pairs, merge
the per-batch result dicts, and assign `summary` for exactly the selected
labels (`results.get(i, "")`). -/
def runSummaries (api : SummApi) (rows : List SRow) (idx : List Nat)
    (bs : Nat) : List SRow :=
  let texts := idx.map (fun i => (Int.ofNat i, pyTextAt rows i))
  let results := (chunks bs texts).foldl
    (fun res b => dictUpdate res (summarizeBatch api b)) []
  mapIdxFrom 0 (fun i r =>
    if i ∈ idx then setSummary r ((dictGet? results (Int.ofNat i)).getD "") else r) rows

/-- The keyword-extraction collaborator (`nlp.py`). -/
structure KwApi where
  batch : List (Int × String) → Option J
  item : String → Option J

/-- `nlp._keywords_one`: empty text or any failure yields `[]`; a parsed
list is mapped to stripped strings with blanks dropped. -/
def keywordsOne (api : KwApi) (text : String) : List String :=
  if trimC text.data = [] then []
  else
    match api.item text with
    | some (.jarr xs) =>
      (xs.map (fun x => String.mk (trimC (pyStrJ x).data))).filter (fun s => s ≠ "")
    | _ => []

/-- The `out` dict built from the parsed batch response in
`_keywords_batch` (`obj.get("keywords", [])`, kept only if a list). -/
def extractKw (parsed : J) : List (Int × List String) :=
  match parsed with
  | .jarr objs =>
    objs.foldl (fun out o =>
      match o with
      | .jobj fs =>
        match jLookup fs "id" with
        | none => out
        | some idv =>
          match pyIntJ idv with
          | none => out
          | some i =>
            match (jLookup fs "keywords").getD (.jarr []) with
            | .jarr kws =>
              dictSet out i ((kws.map
                (fun x => String.mk (trimC (pyStrJ x).data))).filter (fun s => s ≠ ""))
            | _ => out
      | _ => out) []
  | _ => []

/-- `nlp._keywords_batch`. -/
def keywordsBatch (api : KwApi) (texts : List (Int × String)) :
    List (Int × List String) :=
  match api.batch texts with
  | none => texts.map (fun p => (p.1, keywordsOne api p.2))
  | some parsed =>
    let out := extractKw parsed
    let missingIds := ((texts.map Prod.fst).filter
      (fun i => (dictGet? out i).isNone)).dedup
    missingIds.foldl (fun acc i =>
      dictSet acc i (keywordsOne api
        (((texts.find? (fun p => p.1 == i)).map Prod.snd).getD ""))) out

/-- `nlp.extract_keywords` (`results.get(i, [])`). -/
def extractKeywords (api : KwApi) (rows : List SRow) (idx : List Nat)
    (bs : Nat) : List SRow :=
  let texts := idx.map (fun i => (Int.ofNat i, pyTextAt rows i))
  let results := (chunks bs texts).foldl
    (fun res b => dictUpdate res (keywordsBatch api b)) []
  mapIdxFrom 0 (fun i r =>
    if i ∈ idx then setKeywords r ((dictGet? results (Int.ofNat i)).getD []) else r) rows

theorem mapIdxFrom_length {α : Type} (f : Nat → α → α) :
    ∀ (l : List α) (n : Nat), (mapIdxFrom n f l).length = l.length := by
  intro l
  induction l with
  | nil => intro n; rfl
  | cons a l ih => intro n; simp [mapIdxFrom, ih]

theorem mapIdxFrom_getElem {α : Type} (f : Nat → α → α) :
    ∀ (l : List α) (n i : Nat), (mapIdxFrom n f l)[i]? = (l[i]?).map (f (n + i)) := by
  intro l
  induction l with
  | nil => intro n i; simp [mapIdxFrom]
  | cons a l ih =>
    intro n i
    cases i with
    | zero => simp [mapIdxFrom]
    | succ i =>
      simp only [mapIdxFrom, List.getElem?_cons_succ]
      rw [ih (n + 1) i]
      have : n + 1 + i = n + (i + 1) := by omega
      rw [this]

theorem chunksAux_flatten {α : Type} (size : Nat) (hs : 0 < size) :
    ∀ (fuel : Nat) (l : List α), l.length ≤ fuel →
      (chunksAux size fuel l).flatten = l := by
  intro fuel
  induction fuel with
  | zero =>
    intro l hl
    have : l = [] := List.length_eq_zero.1 (Nat.le_zero.1 hl)
    subst this; rfl
  | succ fuel ih =>
    intro l hl
    cases l with
    | nil => rfl
    | cons a t =>
      show (List.take size (a :: t) :: chunksAux size fuel (List.drop size (a :: t))).flatten
        = a :: t
      have hd : ((a :: t).drop size).length ≤ fuel := by
        rw [List.length_drop, List.length_cons]
        simp only [List.length_cons] at hl
        omega
      rw [List.flatten_cons, ih _ hd, List.take_append_drop]

theorem chunks_flatten {α : Type} (size : Nat) (hs : 0 < size) (l : List α) :
    (chunks size l).flatten = l :=
  chunksAux_flatten size hs l.length l (le_refl _)

theorem dictGet_set {κ α : Type} [DecidableEq κ] (d : List (κ × α)) (k : κ) (v : α)
    (k' : κ) :
    dictGet? (dictSet d k v) k' = if k = k' then some v else dictGet? d k' := by
  induction d with
  | nil => simp [dictSet, dictGet?]
  | cons p d ih =>
    simp only [dictSet]
    by_cases hp : p.1 = k
    · rw [if_pos hp]
      simp only [dictGet?]
      by_cases hk : k = k'
      · rw [if_pos hk, if_pos hk]
      · rw [if_neg hk, if_neg hk, if_neg (fun hc => hk (hp.symm.trans hc))]
    · rw [if_neg hp]
      simp only [dictGet?]
      by_cases hq : p.1 = k'
      · rw [if_pos hq, if_neg (fun hc => hp (hq.trans hc.symm)), if_pos hq]
      · rw [if_neg hq, ih]
        by_cases hk : k = k'
        · rw [if_pos hk, if_pos hk]
        · rw [if_neg hk, if_neg hk, if_neg hq]

theorem dictGet_update_isSome {κ α : Type} [DecidableEq κ] (b : List (κ × α)) :
    ∀ (d : List (κ × α)) (k : κ),
      (dictGet? d k).isSome → (dictGet? (dictUpdate d b) k).isSome := by
  induction b with
  | nil => intro d k h; exact h
  | cons p b ih =>
    intro d k h
    show (dictGet? (dictUpdate (dictSet d p.1 p.2) b) k).isSome
    apply ih
    rw [dictGet_set]
    by_cases hk : p.1 = k
    · simp [hk]
    · simp [hk, h]

theorem dictGet_update_mem {κ α : Type} [DecidableEq κ] (b : List (κ × α)) :
    ∀ (d : List (κ × α)) (k : κ),
      k ∈ b.map Prod.fst → (dictGet? (dictUpdate d b) k).isSome := by
  induction b with
  | nil => intro d k h; simp at h
  | cons p b ih =>
    intro d k h
    rw [List.map_cons, List.mem_cons] at h
    show (dictGet? (dictUpdate (dictSet d p.1 p.2) b) k).isSome
    rcases h with h | h
    · apply dictGet_update_isSome
      rw [dictGet_set, if_pos h.symm]
      rfl
    · exact ih _ k h

theorem dictGet_update_inv {κ α : Type} [DecidableEq κ] (G : κ → α)
    (b : List (κ × α)) :
    ∀ d : List (κ × α),
      (∀ k v, dictGet? d k = some v → v = G k) →
      (∀ p ∈ b, p.2 = G p.1) →
      ∀ k v, dictGet? (dictUpdate d b) k = some v → v = G k := by
  induction b with
  | nil => intro d hd _ k v h; exact hd k v h
  | cons p b ih =>
    intro d hd hb k v h
    have h' : dictGet? (dictUpdate (dictSet d p.1 p.2) b) k = some v := h
    refine ih _ ?_ (fun q hq => hb q (List.mem_cons_of_mem p hq)) k v h'
    intro k' v' hkv
    rw [dictGet_set] at hkv
    by_cases hk : p.1 = k'
    · rw [if_pos hk] at hkv
      have hv : p.2 = v' := by injection hkv
      rw [← hv, hb p (List.mem_cons_self p b), hk]
    · rw [if_neg hk] at hkv
      exact hd k' v' hkv

theorem fold_dictUpdate_isSome {κ σ α : Type} [DecidableEq κ]
    (F : List (κ × σ) → List (κ × α))
    (hkeys : ∀ b, (F b).map Prod.fst = b.map Prod.fst)
    (cs : List (List (κ × σ))) :
    ∀ (d : List (κ × α)) (k : κ),
      ((dictGet? d k).isSome ∨ ∃ b ∈ cs, k ∈ b.map Prod.fst) →
      (dictGet? (cs.foldl (fun res b => dictUpdate res (F b)) d) k).isSome := by
  induction cs with
  | nil =>
    intro d k h
    rcases h with h | ⟨b, hb, _⟩
    · exact h
    · simp at hb
  | cons c cs ih =>
    intro d k h
    rw [List.foldl_cons]
    rcases h with h | ⟨b, hb, hk⟩
    · exact ih _ k (Or.inl (dictGet_update_isSome _ d k h))
    · rcases List.mem_cons.1 hb with rfl | hb'
      · refine ih _ k (Or.inl ?_)
        apply dictGet_update_mem
        rw [hkeys]
        exact hk
      · exact ih _ k (Or.inr ⟨b, hb', hk⟩)

theorem fold_dictUpdate_inv {κ σ α : Type} [DecidableEq κ]
    (F : List (κ × σ) → List (κ × α)) (G : κ → α) :
    ∀ cs : List (List (κ × σ)),
      (∀ b ∈ cs, ∀ p ∈ F b, p.2 = G p.1) →
      ∀ d : List (κ × α),
        (∀ k v, dictGet? d k = some v → v = G k) →
        ∀ k v,
          dictGet? (cs.foldl (fun res b => dictUpdate res (F b)) d) k = some v →
          v = G k := by
  intro cs
  induction cs with
  | nil => intro _ d hd k v h; exact hd k v h
  | cons c cs ih =>
    intro hF d hd k v h
    rw [List.foldl_cons] at h
    exact ih (fun b hb => hF b (List.mem_cons_of_mem c hb)) _
      (dictGet_update_inv G (F c) d hd (hF c (List.mem_cons_self c cs))) k v h

theorem summarizeBatch_fail (api : SummApi) (b : List (Int × String))
    (h : api.batch b = none) :
    summarizeBatch api b = b.map (fun p => (p.1, summarizeOne api p.2)) := by
  unfold summarizeBatch
  rw [h]

theorem keywordsBatch_fail (api : KwApi) (b : List (Int × String))
    (h : api.batch b = none) :
    keywordsBatch api b = b.map (fun p => (p.1, keywordsOne api p.2)) := by
  unfold keywordsBatch
  rw [h]

/-- When every batched call fails, the merged result dict maps each selected
label to the per-item outcome on that row's own text. -/
theorem enrich_pipeline_get {α : Type} (oneF : String → α)
    (F : List (Int × String) → List (Int × α))
    (hF : ∀ b, F b = b.map (fun p => (p.1, oneF p.2)))
    (rows : List SRow) (idx : List Nat) (bs : Nat) (hbs : 0 < bs) (deflt : α) :
    ∀ i ∈ idx,
      (dictGet? ((chunks bs (idx.map (fun j => (Int.ofNat j, pyTextAt rows j)))).foldl
          (fun res b => dictUpdate res (F b)) []) (Int.ofNat i)).getD deflt
        = oneF (pyTextAt rows i) := by
  intro i hi
  have hkeys : ∀ b, (F b).map Prod.fst = b.map Prod.fst := by
    intro b
    rw [hF, List.map_map]
    rfl
  have hflat : (chunks bs (idx.map (fun j => (Int.ofNat j, pyTextAt rows j)))).flatten
      = idx.map (fun j => (Int.ofNat j, pyTextAt rows j)) :=
    chunks_flatten bs hbs _
  have hmemtexts : (Int.ofNat i, pyTextAt rows i) ∈
      idx.map (fun j => (Int.ofNat j, pyTextAt rows j)) :=
    List.mem_map.2 ⟨i, hi, rfl⟩
  have h1 : (Int.ofNat i, pyTextAt rows i) ∈
      (chunks bs (idx.map (fun j => (Int.ofNat j, pyTextAt rows j)))).flatten := by
    rw [hflat]; exact hmemtexts
  obtain ⟨b, hb, hpb⟩ := List.mem_flatten.1 h1
  have hsome := fold_dictUpdate_isSome F hkeys _ [] (Int.ofNat i)
    (Or.inr ⟨b, hb, List.mem_map.2 ⟨_, hpb, rfl⟩⟩)
  have hFG : ∀ c ∈ chunks bs (idx.map (fun j => (Int.ofNat j, pyTextAt rows j))),
      ∀ p ∈ F c, p.2 = (fun k : Int => oneF (pyTextAt rows k.toNat)) p.1 := by
    intro c hc p hp
    rw [hF] at hp
    obtain ⟨q, hq, rfl⟩ := List.mem_map.1 hp
    have hqt : q ∈ idx.map (fun j => (Int.ofNat j, pyTextAt rows j)) := by
      rw [← hflat]
      exact List.mem_flatten.2 ⟨c, hc, hq⟩
    obtain ⟨j, _, rfl⟩ := List.mem_map.1 hqt
    show oneF (pyTextAt rows j) = oneF (pyTextAt rows (Int.ofNat j).toNat)
    rfl
  have hinv := fold_dictUpdate_inv F (fun k : Int => oneF (pyTextAt rows k.toNat)) _
    hFG [] (by intro k v h; simp [dictGet?] at h)
  obtain ⟨v, hv⟩ := Option.isSome_iff_exists.1 hsome
  rw [hv]
  have hvG := hinv (Int.ofNat i) v hv
  rw [Option.getD_some, hvG]
  show oneF (pyTextAt rows (Int.ofNat i).toNat) = oneF (pyTextAt rows i)
  rfl

/-- Claim C6: enrichment failure is recovered per record.  For every oracle
behaviour, `run_summaries`/`extract_keywords` return a table of the same
length (no exception escapes once the client exists), leave non-selected rows
untouched, and change only the `summary`/`keywords` column of selected rows.
When the collaborator is down (every batched call fails), each selected row
receives exactly the per-item outcome computed from its OWN text — sibling
records are unaffected — and a per-item failure yields the explicit
placeholder: `"[Summarization error: ...]"` for summaries (or
`"No abstract provided."` for empty text) and `[]` for keywords. -/
theorem c6_enrichment_failure_isolation :
    ∀ (sapi : SummApi) (kapi : KwApi) (rows : List SRow) (idx : List Nat) (bs : Nat),
      0 < bs →
      ((runSummaries sapi rows idx bs).length = rows.length
        ∧ (extractKeywords kapi rows idx bs).length = rows.length)
      ∧ (∀ i, i ∉ idx →
          (runSummaries sapi rows idx bs)[i]? = rows[i]?
            ∧ (extractKeywords kapi rows idx bs)[i]? = rows[i]?)
      ∧ (∀ i ∈ idx,
          (∃ v, (runSummaries sapi rows idx bs)[i]? =
            (rows[i]?).map (fun r => setSummary r v))
          ∧ ∃ w, (extractKeywords kapi rows idx bs)[i]? =
            (rows[i]?).map (fun r => setKeywords r w))
      ∧ ((∀ b, sapi.batch b = none) → ∀ i ∈ idx,
          (runSummaries sapi rows idx bs)[i]? =
            (rows[i]?).map (fun r =>
              setSummary r (summarizeOne sapi (r.abstract.getD ""))))
      ∧ ((∀ b, kapi.batch b = none) → ∀ i ∈ idx,
          (extractKeywords kapi rows idx bs)[i]? =
            (rows[i]?).map (fun r =>
              setKeywords r (keywordsOne kapi (r.abstract.getD ""))))
      ∧ (∀ t e, trimC t.data ≠ [] → sapi.item t = Except.error e →
          summarizeOne sapi t = "[Summarization error: " ++ e ++ "]")
      ∧ (∀ t, kapi.item t = none → keywordsOne kapi t = []) := by
  intro sapi kapi rows idx bs hbs
  refine ⟨⟨?_, ?_⟩, ?_, ?_, ?_, ?_, ?_, ?_⟩
  · simp only [runSummaries]
    exact mapIdxFrom_length _ rows 0
  · simp only [extractKeywords]
    exact mapIdxFrom_length _ rows 0
  · intro i hnotin
    constructor
    · simp only [runSummaries]
      rw [mapIdxFrom_getElem]
      cases hr : rows[i]? with
      | none => rfl
      | some r => simp [Nat.zero_add, hnotin]
    · simp only [extractKeywords]
      rw [mapIdxFrom_getElem]
      cases hr : rows[i]? with
      | none => rfl
      | some r => simp [Nat.zero_add, hnotin]
  · intro i hi
    constructor
    · refine ⟨(dictGet? ((chunks bs (idx.map (fun j => (Int.ofNat j, pyTextAt rows j)))).foldl
        (fun res b => dictUpdate res (summarizeBatch sapi b)) []) (Int.ofNat i)).getD "", ?_⟩
      simp only [runSummaries]
      rw [mapIdxFrom_getElem]
      cases hr : rows[i]? with
      | none => rfl
      | some r => simp [Nat.zero_add, hi]
    · refine ⟨(dictGet? ((chunks bs (idx.map (fun j => (Int.ofNat j, pyTextAt rows j)))).foldl
        (fun res b => dictUpdate res (keywordsBatch kapi b)) []) (Int.ofNat i)).getD [], ?_⟩
      simp only [extractKeywords]
      rw [mapIdxFrom_getElem]
      cases hr : rows[i]? with
      | none => rfl
      | some r => simp [Nat.zero_add, hi]
  · intro hfail i hi
    have hone := enrich_pipeline_get (fun t => summarizeOne sapi t) (summarizeBatch sapi)
      (fun b => summarizeBatch_fail sapi b (hfail b)) rows idx bs hbs "" i hi
    simp only [runSummaries]
    rw [mapIdxFrom_getElem]
    cases hr : rows[i]? with
    | none => rfl
    | some r =>
      simp only [Nat.zero_add, Option.map_some']
      rw [if_pos hi, hone]
      have htext : pyTextAt rows i = r.abstract.getD "" := by
        simp [pyTextAt, hr]
      rw [htext]
  · intro hfail i hi
    have hone := enrich_pipeline_get (fun t => keywordsOne kapi t) (keywordsBatch kapi)
      (fun b => keywordsBatch_fail kapi b (hfail b)) rows idx bs hbs [] i hi
    simp only [extractKeywords]
    rw [mapIdxFrom_getElem]
    cases hr : rows[i]? with
    | none => rfl
    | some r =>
      simp only [Nat.zero_add, Option.map_some']
      rw [if_pos hi, hone]
      have htext : pyTextAt rows i = r.abstract.getD "" := by
        simp [pyTextAt, hr]
      rw [htext]
  · intro t e ht hit
    unfold summarizeOne
    rw [if_neg ht, hit]
  · intro t h
    unfold keywordsOne
    by_cases ht : trimC t.data = []
    · rw [if_pos ht]
    · rw [if_neg ht, h]

/-- Witness for C6 at concrete input: a collaborator that always fails, one
row with a non-empty abstract; the summary is the explicit error placeholder
and the keywords are empty, with the rest of the row untouched. -/
theorem c6_enrichment_failure_isolation_witness :
    (runSummaries ⟨fun _ => none, fun _ => Except.error "boom"⟩
        [⟨some "An abstract", none, none, 5⟩] [0] 12)[0]? =
      some ⟨some "An abstract", some "[Summarization error: boom]", none, 5⟩
    ∧ (extractKeywords ⟨fun _ => none, fun _ => none⟩
        [⟨some "An abstract", none, none, 5⟩] [0] 12)[0]? =
      some ⟨some "An abstract", none, some [], 5⟩ := by
  constructor
  · have h := (c6_enrichment_failure_isolation
      ⟨fun _ => none, fun _ => Except.error "boom"⟩ ⟨fun _ => none, fun _ => none⟩
      [⟨some "An abstract", none, none, 5⟩] [0] 12 (by decide)).2.2.2.1
      (fun b => rfl) 0 (by decide)
    rw [h]
    decide
  · have h := (c6_enrichment_failure_isolation
      ⟨fun _ => none, fun _ => Except.error "boom"⟩ ⟨fun _ => none, fun _ => none⟩
      [⟨some "An abstract", none, none, 5⟩] [0] 12 (by decide)).2.2.2.2.1
      (fun b => rfl) 0 (by decide)
    rw [h]
    decide
